import Mathlib

/-!
Verification of the coverage-interval engine of the
reference-based-cactus-constructor repository.

The definitions below are shallow embeddings of the Python functions in
`src/src/mapping_functions.py` and `src/remap_stats/remap_stats_jupyter.py`.
Genomic coordinates are Python integers, embedded as `Int`.  Per-sequence
dictionaries (`defaultdict(list)` keyed by contig id) are embedded as the
per-key computation where a claim is per-sequence, and as association lists
(`List (String × _)` with `List.lookup`) where the dictionary structure
itself matters (the gap extractor).
-/

namespace CactusCoverage

/-- One coverage point, `(point_value, start_bool)`, as appended by
`get_mapping_coverage_points` / `get_coverage_points_from_mapping_coords`:
`True` marks the start of a mapped region, `False` its stop. -/
abbrev Ev := Int × Bool

/-- Embedding of `get_coverage_points_from_mapping_coords`
(`remap_stats_jupyter.py`, lines 52-66) restricted to one sequence: for each
coordinate pair the two points `(start, True)` and `(stop, False)` are
appended in order. -/
def get_coverage_points_from_mapping_coords (coords : List (Int × Int)) : List Ev :=
  match coords with
  | [] => []
  | c :: rest => (c.1, true) :: (c.2, false) :: get_coverage_points_from_mapping_coords rest

/-- The sort order used by
`sorted(mapping_coverage_points[contig_id], key=operator.itemgetter(0, 1))`:
lexicographic on `(position, start_bool)` with Python's `False < True`.
At equal positions a stop point therefore sorts before a start point. -/
def evLE (a b : Ev) : Prop :=
  a.1 < b.1 ∨ (a.1 = b.1 ∧ (a.2 = true → b.2 = true))

instance : DecidablePred fun p : Ev × Ev => evLE p.1 p.2 := by
  intro p; unfold evLE; infer_instance

instance evLE.decidable (a b : Ev) : Decidable (evLE a b) := by
  unfold evLE; infer_instance

/-- Ordered insertion used to model Python's `sorted` (any sort that is a
permutation and is sorted w.r.t. the total order `evLE` produces the same
list, because `evLE` ties only hold between equal elements' keys and the
key here is the whole element). -/
def insertEv (e : Ev) : List Ev → List Ev
  | [] => [e]
  | f :: rest => if evLE e f then e :: f :: rest else f :: insertEv e rest

/-- Model of `sorted(points, key=operator.itemgetter(0, 1))`. -/
def sortEvents : List Ev → List Ev
  | [] => []
  | e :: rest => insertEv e (sortEvents rest)

/-- One iteration of the sweep loop body in
`get_coverage_coords_from_coverage_points` (lines 80-98 of
`remap_stats_jupyter.py`, identical to lines 99-117 of
`mapping_functions.py`), written as structural recursion over the sorted
point list.  State: `openPoints` (the running `open_points` counter,
Python truthiness `if open_points:` is `≠ 0`) and `cur` (the mutable
`current_region` two-element list).  A region is emitted (appended to the
output) exactly when a stop point brings `open_points` to `0`. -/
def sweepGo (openPoints : Int) (cur : Int × Int) : List Ev → List (Int × Int)
  | [] => []
  | e :: rest =>
    let cur1 := if openPoints ≠ 0 then (cur.1, e.1) else cur
    if e.2 then
      sweepGo (openPoints + 1) (if openPoints + 1 = 1 then (e.1, cur1.2) else cur1) rest
    else
      if openPoints - 1 = 0 then cur1 :: sweepGo (openPoints - 1) cur1 rest
      else sweepGo (openPoints - 1) cur1 rest

/-- Embedding of `get_coverage_coords_from_coverage_points`
(`remap_stats_jupyter.py`, lines 68-99) = `get_mapping_coverage_coordinates`
(`mapping_functions.py`, lines 87-118), restricted to one sequence:
sort the points by `(position, start_bool)` and run the sweep with
`open_points = 0` and `current_region = [0, 0]`. -/
def get_coverage_coords_from_coverage_points (points : List Ev) : List (Int × Int) :=
  sweepGo 0 (0, 0) (sortEvents points)

/-- Embedding of `get_mapping_coverage_lengths_from_coverage_coords`
(`remap_stats_jupyter.py`, lines 101-106), restricted to one sequence: the
sum of `coord[1] - coord[0]` over its region list. -/
def get_mapping_coverage_lengths_from_coverage_coords (coords : List (Int × Int)) : Int :=
  (coords.map (fun c => c.2 - c.1)).sum

/-- The whole per-sequence merger pipeline: interval list to points to
merged covered regions. -/
def mergedCoords (coords : List (Int × Int)) : List (Int × Int) :=
  get_coverage_coords_from_coverage_points (get_coverage_points_from_mapping_coords coords)

/-- The set of integer positions covered by at least one of the half-open
intervals in a coordinate list, as a finite set. -/
def unionF (coords : List (Int × Int)) : Finset ℤ :=
  coords.foldr (fun r acc => Finset.Ico r.1 r.2 ∪ acc) ∅

example : mergedCoords [(10, 20), (20, 30)] = [(10, 20), (20, 30)] := by decide
example : mergedCoords [(0, 10), (5, 5)] = [(0, 5), (5, 10)] := by decide
example : mergedCoords [(5, 5)] = [] := by decide
example : mergedCoords [(3, 8), (1, 4)] = [(1, 8)] := by decide
example : mergedCoords [(1, 4), (6, 9), (2, 7)] = [(1, 9)] := by decide

theorem evLE_total (a b : Ev) : evLE a b ∨ evLE b a := by
  unfold evLE
  rcases lt_trichotomy a.1 b.1 with h | h | h
  · exact Or.inl (Or.inl h)
  · by_cases hb : a.2 = true → b.2 = true
    · exact Or.inl (Or.inr ⟨h, hb⟩)
    · right; right
      refine ⟨h.symm, ?_⟩
      intro hbt
      push_neg at hb
      exact absurd hbt hb.2
  · exact Or.inr (Or.inl h)

theorem perm_insertEv (e : Ev) (l : List Ev) : (insertEv e l).Perm (e :: l) := by
  induction l with
  | nil => simp [insertEv]
  | cons f rest ih =>
    unfold insertEv
    by_cases h : evLE e f
    · simp [h]
    · simp only [h, if_false]
      exact (ih.cons f).trans (List.Perm.swap e f rest)

theorem perm_sortEvents (l : List Ev) : (sortEvents l).Perm l := by
  induction l with
  | nil => simp [sortEvents]
  | cons e rest ih =>
    exact (perm_insertEv e (sortEvents rest)).trans (ih.cons e)

theorem mem_insertEv {y e : Ev} {l : List Ev} :
    y ∈ insertEv e l ↔ y = e ∨ y ∈ l := by
  rw [(perm_insertEv e l).mem_iff]; simp

theorem evLE_trans {a b c : Ev} (h1 : evLE a b) (h2 : evLE b c) : evLE a c := by
  unfold evLE at *
  rcases h1 with h1 | ⟨h1, h1b⟩ <;> rcases h2 with h2 | ⟨h2, h2b⟩
  · exact Or.inl (h1.trans h2)
  · exact Or.inl (h2 ▸ h1)
  · exact Or.inl (h1 ▸ h2)
  · exact Or.inr ⟨h1.trans h2, fun ha => h2b (h1b ha)⟩

theorem pairwise_insertEv (e : Ev) (l : List Ev) (h : l.Pairwise evLE) :
    (insertEv e l).Pairwise evLE := by
  induction l with
  | nil => simp [insertEv]
  | cons f rest ih =>
    rcases List.pairwise_cons.mp h with ⟨hf, hrest⟩
    unfold insertEv
    by_cases hef : evLE e f
    · rw [if_pos hef]
      refine List.pairwise_cons.mpr ⟨?_, h⟩
      intro y hy
      rcases List.mem_cons.mp hy with rfl | hy
      · exact hef
      · exact evLE_trans hef (hf y hy)
    · rw [if_neg hef]
      refine List.pairwise_cons.mpr ⟨?_, ih hrest⟩
      intro y hy
      rcases mem_insertEv.mp hy with h' | hy
      · exact h' ▸ (evLE_total e f).resolve_left hef
      · exact hf y hy

theorem pairwise_sortEvents (l : List Ev) : (sortEvents l).Pairwise evLE := by
  induction l with
  | nil => simp [sortEvents]
  | cons e rest ih => exact pairwise_insertEv e (sortEvents rest) ih

/-- The sweep with the `current_region` pair replaced by just its first
component: the second component is overwritten with the emitting stop's
position before every emission, so only the first component (the pending
region's start) influences the output. -/
def sweepAux (o rs : Int) : List Ev → List (Int × Int)
  | [] => []
  | (p, true) :: rest => sweepAux (o + 1) (if o + 1 = 1 then p else rs) rest
  | (p, false) :: rest =>
    if o - 1 = 0 then (rs, p) :: sweepAux (o - 1) rs rest
    else sweepAux (o - 1) rs rest

theorem sweepGo_eq_sweepAux :
    ∀ (es : List Ev) (o : Int) (cur : Int × Int), sweepGo o cur es = sweepAux o cur.1 es := by
  intro es
  induction es with
  | nil => intro o cur; rfl
  | cons e rest ih =>
    intro o cur
    obtain ⟨p, b⟩ := e
    cases b
    · show (if o - 1 = 0 then _ :: sweepGo (o - 1) _ rest else sweepGo (o - 1) _ rest) = _
      by_cases h : o - 1 = 0
      · have ho : o ≠ 0 := by omega
        simp only [sweepAux, h, if_true, ho, ite_true, ne_eq, not_false_iff, ih]
      · by_cases ho : o ≠ 0 <;> simp_all [sweepAux]
    · show sweepGo (o + 1) _ rest = _
      by_cases h : o + 1 = 1
      · have ho : ¬o ≠ 0 := by omega
        simp only [h, if_true, ih, sweepAux]
      · by_cases ho : o ≠ 0 <;> simp_all [sweepAux]

/-- Signed weight of one coverage point at threshold `x`: points at
positions `≤ x` count `+1` (start) or `-1` (stop), later points count 0. -/
def evWeight (x : Int) (e : Ev) : Int :=
  if e.1 ≤ x then (if e.2 then 1 else -1) else 0

/-- Number of starts minus number of stops among points at positions `≤ x`. -/
def cntLE (x : Int) (es : List Ev) : Int := (es.map (evWeight x)).sum

/-- Number of starts minus number of stops in the whole point list. -/
def cntTot (es : List Ev) : Int :=
  (es.map (fun e => if e.2 then (1 : Int) else -1)).sum

@[simp] theorem cntLE_nil (x : Int) : cntLE x [] = 0 := rfl

@[simp] theorem cntLE_cons (x : Int) (e : Ev) (es : List Ev) :
    cntLE x (e :: es) = evWeight x e + cntLE x es := by
  simp [cntLE]

@[simp] theorem cntTot_nil : cntTot [] = 0 := rfl

@[simp] theorem cntTot_cons (e : Ev) (es : List Ev) :
    cntTot (e :: es) = (if e.2 then (1 : Int) else -1) + cntTot es := by
  simp [cntTot]

theorem cntLE_perm (x : Int) {es es' : List Ev} (h : es.Perm es') :
    cntLE x es = cntLE x es' := (h.map (evWeight x)).sum_eq

theorem cntTot_perm {es es' : List Ev} (h : es.Perm es') : cntTot es = cntTot es' :=
  (h.map _).sum_eq

theorem cntLE_eq_zero_of_gt (x : Int) (es : List Ev) (h : ∀ e ∈ es, x < e.1) :
    cntLE x es = 0 := by
  induction es with
  | nil => rfl
  | cons e rest ih =>
    have hx : ¬e.1 ≤ x := by have := h e (by simp); omega
    simp [evWeight, hx, ih fun f hf => h f (by simp [hf])]

/-- Membership of a position in the union of a region list. -/
def inRegs (rl : List (Int × Int)) (x : Int) : Prop := ∃ r ∈ rl, r.1 ≤ x ∧ x < r.2

@[simp] theorem inRegs_nil (x : Int) : inRegs [] x ↔ False := by simp [inRegs]

@[simp] theorem inRegs_cons (r : Int × Int) (rl : List (Int × Int)) (x : Int) :
    inRegs (r :: rl) x ↔ (r.1 ≤ x ∧ x < r.2) ∨ inRegs rl x := by
  simp [inRegs]

theorem sweepAux_start (o rs p : Int) (rest : List Ev) :
    sweepAux o rs ((p, true) :: rest) =
      sweepAux (o + 1) (if o + 1 = 1 then p else rs) rest := rfl

theorem sweepAux_stop (o rs p : Int) (rest : List Ev) :
    sweepAux o rs ((p, false) :: rest) =
      if o - 1 = 0 then (rs, p) :: sweepAux (o - 1) rs rest
      else sweepAux (o - 1) rs rest := rfl

/-- Correctness of the sweep loop: provided the event list is sorted in the
order actually used by the code (position ascending, stops before starts at
equal positions), the pending-region start is a lower bound for all
remaining events whenever a region is open, and the events are balanced,
a position `x` lies in some emitted region exactly when strictly more start
points than stop points occur at positions `≤ x`. -/
theorem sweepAux_covered_iff :
    ∀ es : List Ev, es.Pairwise evLE →
      ∀ o rs x : Int, (1 ≤ o → ∀ e ∈ es, rs ≤ e.1) → o + cntTot es = 0 →
      (inRegs (sweepAux o rs es) x ↔ (0 < o + cntLE x es ∧ (1 ≤ o → rs ≤ x))) := by
  intro es
  induction es with
  | nil =>
    intro _ o rs x _ hbal
    rw [cntTot_nil] at hbal
    simp only [sweepAux, inRegs_nil, cntLE_nil, false_iff]
    omega
  | cons e rest ih =>
    intro hpw o rs x h1 hbal
    obtain ⟨p, b⟩ := e
    rcases List.pairwise_cons.mp hpw with ⟨hhead, hrest⟩
    have hpos : ∀ f ∈ rest, p ≤ f.1 := by
      intro f hf
      rcases hhead f hf with h | ⟨h, _⟩ <;> omega
    have hz : ¬p ≤ x → cntLE x rest = 0 := fun hpx =>
      cntLE_eq_zero_of_gt x rest (fun f hf => by have := hpos f hf; omega)
    cases b
    · -- stop point
      have hbal' : (o - 1) + cntTot rest = 0 := by rw [cntTot_cons] at hbal; simp at hbal; omega
      have h1' : 1 ≤ o - 1 → ∀ f ∈ rest, rs ≤ f.1 := fun ho f hf =>
        h1 (by omega) f (List.mem_cons_of_mem _ hf)
      have IH := ih hrest (o - 1) rs x h1' hbal'
      have hrsP : 1 ≤ o → rs ≤ p := fun ho => by
        have := h1 ho (p, false) (List.mem_cons_self _ _); simpa using this
      rw [sweepAux_stop]
      have hw : evWeight x (p, false) = if p ≤ x then (-1 : Int) else 0 := by
        simp [evWeight]
      by_cases ho : o - 1 = 0
      · rw [if_pos ho, inRegs_cons, IH, cntLE_cons, hw]
        by_cases hpx : p ≤ x
        · rw [if_pos hpx]
          have := hrsP (by omega)
          omega
        · rw [if_neg hpx, hz hpx]
          omega
      · rw [if_neg ho, IH, cntLE_cons, hw]
        by_cases hpx : p ≤ x
        · rw [if_pos hpx]; omega
        · rw [if_neg hpx, hz hpx]; omega
    · -- start point
      have hbal' : (o + 1) + cntTot rest = 0 := by rw [cntTot_cons] at hbal; simp at hbal; omega
      rw [sweepAux_start]
      have hw : evWeight x (p, true) = if p ≤ x then (1 : Int) else 0 := by
        simp [evWeight]
      by_cases h01 : o + 1 = 1
      · rw [if_pos h01]
        have IH := ih hrest (o + 1) p x (fun _ => hpos) hbal'
        rw [IH, cntLE_cons, hw]
        by_cases hpx : p ≤ x
        · rw [if_pos hpx]; omega
        · rw [if_neg hpx, hz hpx]; omega
      · rw [if_neg h01]
        have h1' : 1 ≤ o + 1 → ∀ f ∈ rest, rs ≤ f.1 := fun ho f hf =>
          h1 (by omega) f (List.mem_cons_of_mem _ hf)
        have IH := ih hrest (o + 1) rs x h1' hbal'
        rw [IH, cntLE_cons, hw]
        by_cases hpx : p ≤ x
        · rw [if_pos hpx]; omega
        · rw [if_neg hpx, hz hpx]; omega

/-- An optional lower bound on an integer. -/
def obLE : Option Int → Int → Prop
  | none, _ => True
  | some b, x => b ≤ x

/-- The region list is sorted ascending, every region is nonempty
(`start < stop`), consecutive regions satisfy `stop ≤ next start`, and the
first region starts at or after the optional bound. -/
def RegChain : Option Int → List (Int × Int) → Prop
  | _, [] => True
  | ob, r :: rest => obLE ob r.1 ∧ r.1 < r.2 ∧ RegChain (some r.2) rest

/-- Structure of the sweep output: under the entry invariants, the emitted
regions form a sorted, pairwise-disjoint chain of nonempty regions. -/
theorem sweepAux_regChain :
    ∀ es : List Ev, es.Pairwise evLE →
      ∀ (o rs : Int) (ob : Option Int),
      (∀ e ∈ es, obLE ob e.1) → (1 ≤ o → obLE ob rs) →
      (1 ≤ o → ∀ e ∈ es, (e.2 = true → rs ≤ e.1) ∧ (e.2 = false → rs < e.1)) →
      RegChain ob (sweepAux o rs es) := by
  intro es
  induction es with
  | nil => intro _ o rs ob _ _ _; trivial
  | cons e rest ih =>
    intro hpw o rs ob hob hobrs h1
    obtain ⟨p, b⟩ := e
    rcases List.pairwise_cons.mp hpw with ⟨hhead, hrest⟩
    have hpos : ∀ f ∈ rest, p ≤ f.1 := by
      intro f hf
      rcases hhead f hf with h | ⟨h, _⟩ <;> omega
    have hobrest : ∀ f ∈ rest, obLE ob f.1 := fun f hf =>
      hob f (List.mem_cons_of_mem _ hf)
    cases b
    · -- stop point
      rw [sweepAux_stop]
      by_cases ho : o - 1 = 0
      · rw [if_pos ho]
        refine ⟨hobrs (by omega), ?_, ?_⟩
        · exact (h1 (by omega) (p, false) (List.mem_cons_self _ _)).2 rfl
        · exact ih hrest (o - 1) rs (some p) hpos (fun h => absurd h (by omega))
            (fun h => absurd h (by omega))
      · rw [if_neg ho]
        refine ih hrest (o - 1) rs ob hobrest (fun h => hobrs (by omega)) ?_
        exact fun h f hf => h1 (by omega) f (List.mem_cons_of_mem _ hf)
    · -- start point
      rw [sweepAux_start]
      by_cases h01 : o + 1 = 1
      · rw [if_pos h01]
        refine ih hrest (o + 1) p ob hobrest
          (fun _ => hob (p, true) (List.mem_cons_self _ _)) ?_
        intro _ f hf
        refine ⟨fun _ => hpos f hf, fun hstop => ?_⟩
        rcases hhead f hf with h | ⟨h, h2⟩
        · omega
        · exact absurd (h2 rfl) (by simp [hstop])
      · rw [if_neg h01]
        refine ih hrest (o + 1) rs ob hobrest (fun h => hobrs (by omega)) ?_
        exact fun h f hf => h1 (by omega) f (List.mem_cons_of_mem _ hf)

@[simp] theorem unionF_nil : unionF [] = ∅ := rfl

@[simp] theorem unionF_cons (r : Int × Int) (rl : List (Int × Int)) :
    unionF (r :: rl) = Finset.Ico r.1 r.2 ∪ unionF rl := rfl

theorem mem_unionF {rl : List (Int × Int)} {x : Int} :
    x ∈ unionF rl ↔ inRegs rl x := by
  induction rl with
  | nil => simp
  | cons r rest ih => simp [Finset.mem_union, Finset.mem_Ico, ih]

theorem regChain_bound :
    ∀ (rl : List (Int × Int)) (b : Int), RegChain (some b) rl →
      ∀ x ∈ unionF rl, b ≤ x := by
  intro rl
  induction rl with
  | nil => simp
  | cons r rest ih =>
    intro b hc x hx
    obtain ⟨hb, hlt, hchain⟩ := hc
    rcases Finset.mem_union.mp hx with hx | hx
    · have := Finset.mem_Ico.mp hx
      simp only [obLE] at hb
      omega
    · have := ih r.2 hchain x hx
      simp only [obLE] at hb
      omega

/-- For a sorted disjoint chain of nonempty regions, the number of covered
positions equals the sum of the region lengths. -/
theorem card_unionF :
    ∀ (rl : List (Int × Int)) (ob : Option Int), RegChain ob rl →
      ((unionF rl).card : Int) = (rl.map (fun r => r.2 - r.1)).sum := by
  intro rl
  induction rl with
  | nil => simp
  | cons r rest ih =>
    intro ob hc
    obtain ⟨_, hlt, hchain⟩ := hc
    have hdisj : Disjoint (Finset.Ico r.1 r.2) (unionF rest) := by
      rw [Finset.disjoint_left]
      intro x hx hx'
      have h1 := (Finset.mem_Ico.mp hx).2
      have h2 := regChain_bound rest r.2 hchain x hx'
      omega
    rw [unionF_cons, Finset.card_union_of_disjoint hdisj, List.map_cons, List.sum_cons,
      ← ih (some r.2) hchain]
    push_cast [Int.card_Ico]
    rw [Int.toNat_of_nonneg (by omega)]

@[simp] theorem points_nil : get_coverage_points_from_mapping_coords [] = [] := rfl

@[simp] theorem points_cons (c : Int × Int) (rest : List (Int × Int)) :
    get_coverage_points_from_mapping_coords (c :: rest) =
      (c.1, true) :: (c.2, false) :: get_coverage_points_from_mapping_coords rest := rfl

theorem evWeight_start (x p : Int) : evWeight x (p, true) = if p ≤ x then 1 else 0 := by
  simp [evWeight]

theorem evWeight_stop (x p : Int) : evWeight x (p, false) = if p ≤ x then -1 else 0 := by
  simp [evWeight]

theorem cntTot_points (coords : List (Int × Int)) :
    cntTot (get_coverage_points_from_mapping_coords coords) = 0 := by
  induction coords with
  | nil => rfl
  | cons c rest ih =>
    simp only [get_coverage_points_from_mapping_coords, cntTot_cons, ih]
    norm_num

/-- The merger output covers a position exactly when strictly more interval
starts than interval stops lie at positions `≤ x` — true for arbitrary
coordinate lists, even ill-formed ones. -/
theorem mem_unionF_mergedCoords (coords : List (Int × Int)) (x : Int) :
    x ∈ unionF (mergedCoords coords) ↔
      0 < cntLE x (get_coverage_points_from_mapping_coords coords) := by
  rw [mem_unionF]
  unfold mergedCoords get_coverage_coords_from_coverage_points
  rw [sweepGo_eq_sweepAux]
  have hperm := perm_sortEvents (get_coverage_points_from_mapping_coords coords)
  have hbal : (0 : Int) + cntTot (sortEvents (get_coverage_points_from_mapping_coords coords)) = 0 := by
    rw [cntTot_perm hperm, cntTot_points]
    norm_num
  rw [sweepAux_covered_iff _ (pairwise_sortEvents _) 0 0 x (fun h => absurd h (by omega)) hbal]
  rw [cntLE_perm x hperm]
  constructor
  · exact fun h => by omega
  · exact fun h => ⟨by omega, fun hc => absurd hc (by omega)⟩

/-- The merger output is a sorted, pairwise-disjoint chain of nonempty
regions, for every input coordinate list. -/
theorem mergedCoords_regChain (coords : List (Int × Int)) :
    RegChain none (mergedCoords coords) := by
  unfold mergedCoords get_coverage_coords_from_coverage_points
  rw [sweepGo_eq_sweepAux]
  exact sweepAux_regChain _ (pairwise_sortEvents _) 0 0 none (fun _ _ => trivial)
    (fun h => absurd h (by omega)) (fun h => absurd h (by omega))

theorem cntLE_points_nonneg (x : Int) (coords : List (Int × Int))
    (h : ∀ c ∈ coords, c.1 ≤ c.2) :
    0 ≤ cntLE x (get_coverage_points_from_mapping_coords coords) := by
  induction coords with
  | nil => simp
  | cons c rest ih =>
    have hc := h c (List.mem_cons_self _ _)
    have hrest := ih fun d hd => h d (List.mem_cons_of_mem _ hd)
    rw [points_cons, cntLE_cons, cntLE_cons, evWeight_start, evWeight_stop]
    split_ifs <;> omega

theorem cntLE_points_pos_iff (x : Int) (coords : List (Int × Int))
    (h : ∀ c ∈ coords, c.1 ≤ c.2) :
    0 < cntLE x (get_coverage_points_from_mapping_coords coords) ↔
      ∃ c ∈ coords, c.1 ≤ x ∧ x < c.2 := by
  induction coords with
  | nil => simp
  | cons c rest ih =>
    have hc := h c (List.mem_cons_self _ _)
    have hne := cntLE_points_nonneg x rest fun d hd => h d (List.mem_cons_of_mem _ hd)
    have IH := ih fun d hd => h d (List.mem_cons_of_mem _ hd)
    rw [points_cons, cntLE_cons, cntLE_cons, evWeight_start, evWeight_stop]
    constructor
    · intro hpos
      by_cases hcov : c.1 ≤ x ∧ x < c.2
      · exact ⟨c, List.mem_cons_self _ _, hcov⟩
      · have hr : 0 < cntLE x (get_coverage_points_from_mapping_coords rest) := by
          split_ifs at hpos <;> omega
        obtain ⟨d, hd, hcd⟩ := IH.mp hr
        exact ⟨d, List.mem_cons_of_mem _ hd, hcd⟩
    · rintro ⟨d, hd, hcd⟩
      rcases List.mem_cons.mp hd with h' | hd
      · subst h'
        split_ifs <;> omega
      · have hr := IH.mpr ⟨d, hd, hcd⟩
        split_ifs <;> omega

/-- Merging preserves the covered set: for well-formed intervals the union
of the merged regions equals the union of the input intervals. -/
theorem unionF_mergedCoords (coords : List (Int × Int))
    (h : ∀ c ∈ coords, c.1 ≤ c.2) :
    unionF (mergedCoords coords) = unionF coords := by
  ext x
  rw [mem_unionF_mergedCoords, cntLE_points_pos_iff x coords h, mem_unionF]
  rfl

theorem points_append (a b : List (Int × Int)) :
    get_coverage_points_from_mapping_coords (a ++ b) =
      get_coverage_points_from_mapping_coords a ++
        get_coverage_points_from_mapping_coords b := by
  induction a with
  | nil => simp
  | cons c rest ih => simp [ih]

theorem cntLE_append (x : Int) (a b : List Ev) :
    cntLE x (a ++ b) = cntLE x a + cntLE x b := by
  simp [cntLE]

/-- C1 counterexample: on the two adjacent touching input intervals
`(10,20)` and `(20,30)` the merger emits the two regions `(10,20)` and
`(20,30)` — with `R_0.stop = 20 ≥ 20 = R_1.start` — and not the single
merged region `(10,30)` the claim requires.  (The sort key
`(position, start_bool)` places the stop at 20 before the start at 20, so
`open_points` returns to 0 between the two intervals.) -/
theorem merger_adjacent_touching_counterexample :
    mergedCoords [(10, 20), (20, 30)] = [(10, 20), (20, 30)] ∧
      mergedCoords [(10, 20), (20, 30)] ≠ [(10, 30)] := by decide

/-- C1 (amended): for every sequence and every list of input intervals, the
region list produced by CoverageMerger is sorted ascending with every region
nonempty (`start < stop`) and pairwise non-overlapping
(`R_i.stop <= R_{i+1}.start`); but two consecutive regions may touch
(`R_i.stop = R_{i+1}.start`), and in particular the two adjacent touching
input intervals `(10,20)` and `(20,30)` stay two adjacent regions instead of
merging into `(10,30)`. -/
theorem merger_output_sorted_disjoint (coords : List (Int × Int)) :
    RegChain none (mergedCoords coords) :=
  mergedCoords_regChain coords

/-- C2: for every sequence and every list of input intervals with
`start <= stop`, the per-sequence sum of `stop - start` over the merger's
regions, as computed by `get_mapping_coverage_lengths_from_coverage_coords`,
equals the number of integer positions covered by at least one input
interval. -/
theorem length_aggregator_measures_union (coords : List (Int × Int))
    (h : ∀ c ∈ coords, c.1 ≤ c.2) :
    get_mapping_coverage_lengths_from_coverage_coords (mergedCoords coords) =
      ((unionF coords).card : Int) := by
  have h1 := card_unionF (mergedCoords coords) none (mergedCoords_regChain coords)
  rw [unionF_mergedCoords coords h] at h1
  exact h1.symm

/-- Witness for C2 at a concrete input with overlapping, touching and
disjoint intervals. -/
theorem length_aggregator_measures_union_witness :
    (∀ c ∈ [((10 : Int), (20 : Int)), (15, 30), (40, 45)], c.1 ≤ c.2) ∧
      get_mapping_coverage_lengths_from_coverage_coords
          (mergedCoords [(10, 20), (15, 30), (40, 45)]) =
        ((unionF [((10 : Int), (20 : Int)), (15, 30), (40, 45)]).card : Int) :=
  ⟨by decide, length_aggregator_measures_union _ (by decide)⟩

/-- C9 counterexample: adding the zero-length interval `(5,5)` to the input
`[(0,10)]` changes the merger's output region list: the region `(0,10)` is
split at 5 into `(0,5)` and `(5,10)` (the stop point at 5 sorts before the
start point at 5 and closes the open region). -/
theorem zero_length_interval_counterexample :
    mergedCoords [(0, 10), (5, 5)] = [(0, 5), (5, 10)] ∧
      mergedCoords [(0, 10)] = [(0, 10)] ∧
      mergedCoords [(0, 10), (5, 5)] ≠ mergedCoords [(0, 10)] := by decide

/-- C9 (amended): a zero-length interval contributes no coverage — adding
`(p,p)` to a sequence's input leaves the set of covered positions of the
merger's output, and hence the per-sequence covered length, unchanged — but
it may split an enclosing output region in two at `p`, changing the region
list itself. -/
theorem zero_length_interval_preserves_coverage (coords : List (Int × Int)) (p : Int) :
    unionF (mergedCoords (coords ++ [(p, p)])) = unionF (mergedCoords coords) ∧
      get_mapping_coverage_lengths_from_coverage_coords
          (mergedCoords (coords ++ [(p, p)])) =
        get_mapping_coverage_lengths_from_coverage_coords (mergedCoords coords) := by
  have hu : unionF (mergedCoords (coords ++ [(p, p)])) = unionF (mergedCoords coords) := by
    ext x
    rw [mem_unionF_mergedCoords, mem_unionF_mergedCoords, points_append, cntLE_append]
    have hz : cntLE x (get_coverage_points_from_mapping_coords [(p, p)]) = 0 := by
      rw [points_cons, points_nil, cntLE_cons, cntLE_cons, cntLE_nil,
        evWeight_start, evWeight_stop]
      split_ifs <;> omega
    rw [hz, add_zero]
  refine ⟨hu, ?_⟩
  have h1 := card_unionF _ none (mergedCoords_regChain (coords ++ [(p, p)]))
  have h2 := card_unionF _ none (mergedCoords_regChain coords)
  show (List.map _ _).sum = (List.map _ _).sum
  rw [← h1, ← h2, hu]

/-! ## Gap extraction (`get_poor_mapping_coverage_coordinates`) -/

/-- The interior loop of `get_poor_mapping_coverage_coordinates`
(`mapping_functions.py`, lines 154-170): for every adjacent pair of covered
regions, pad the gap between them by the context, clamp to `[0, L]`, and
keep it only if it meets the size threshold. -/
def interiorGaps (L ctx M : Int) : List (Int × Int) → List (Int × Int)
  | a :: b :: rest =>
    let s0 := a.2 - ctx
    let s := if s0 < 0 then 0 else s0
    let e0 := b.1 + ctx
    let e := if e0 > L then L else e0
    (if e - s ≥ M then [(s, e)] else []) ++ interiorGaps L ctx M (b :: rest)
  | _ => []

/-- The per-contig body of `get_poor_mapping_coverage_coordinates`
(`mapping_functions.py`, lines 141-183 = `remap_stats_jupyter.py`, lines
144-185), for a contig that has at least one covered region.  (Python
indexes `coords[0]` and `coords[-1]` and would raise on an empty list; the
merger only creates a contig key on its first emitted region, so the list is
never empty in the pipeline; the `[]` branch below is unreachable there.) -/
def poor_mapping_coords_contig (L : Int) (coords : List (Int × Int)) (ctx M : Int) :
    List (Int × Int) :=
  match coords with
  | [] => []
  | first :: _ =>
    let leading :=
      if first.1 > 0 then
        let stop0 := first.1 + ctx
        let stop1 := if stop0 > L then L else stop0
        if stop1 - 0 ≥ M then [(0, stop1)] else []
      else []
    let lastR := coords.getLastD (0, 0)
    let trailing :=
      if lastR.2 < L then
        let start0 := lastR.2 - ctx
        let start1 := if start0 < 0 then 0 else start0
        if L - start1 ≥ M then [(start1, L)] else []
      else []
    leading ++ interiorGaps L ctx M coords ++ trailing

/-- The loop body of `get_poor_mapping_coverage_coordinates` for one entry
of the length table (lines 140-187 of `mapping_functions.py`): a contig with
covered regions gets the per-contig gap computation, a contig without
covered regions gets the unconditional full-sequence fallback `(0, L)`. -/
def gapEntry (mapping_coverage_coords : List (String × List (Int × Int)))
    (sequence_context minimum_size_remap : Int) (cl : String × Int) :
    String × List (Int × Int) :=
  match List.lookup cl.1 mapping_coverage_coords with
  | some coords =>
    (cl.1, poor_mapping_coords_contig cl.2 coords sequence_context minimum_size_remap)
  | none => (cl.1, [(0, cl.2)])

/-- Embedding of `get_poor_mapping_coverage_coordinates`
(`mapping_functions.py`, lines 120-188): iterate over the length table,
computing the gap list of each of its contigs.  The Python `defaultdict`
output is represented as an association list with one entry per length-table
key (a contig whose candidates were all below the threshold is represented
by an empty region list, where the `defaultdict` would simply have no
key). -/
def get_poor_mapping_coverage_coordinates
    (contig_lengths : List (String × Int))
    (mapping_coverage_coords : List (String × List (Int × Int)))
    (sequence_context minimum_size_remap : Int) : List (String × List (Int × Int)) :=
  contig_lengths.map (gapEntry mapping_coverage_coords sequence_context minimum_size_remap)

/-- The gap-extraction contract exactly as the specification words it
(&#167;4.5): leading candidate `[0, min(R_0.start + C, L))` when
`R_0.start > 0`, interior candidates
`[max(R_i.stop - C, 0), min(R_{i+1}.start + C, L))` for each adjacent pair,
trailing candidate `[max(R_{n-1}.stop - C, 0), L)` when `R_{n-1}.stop < L`,
each emitted iff its length is `>= M`.  Stated for comparison with the
source-derived `poor_mapping_coords_contig`. -/
def gapExtractorSpec (L ctx M : Int) (coords : List (Int × Int)) : List (Int × Int) :=
  match coords with
  | [] => []
  | first :: _ =>
    let lastR := coords.getLastD (0, 0)
    (if first.1 > 0 ∧ M ≤ min (first.1 + ctx) L then [(0, min (first.1 + ctx) L)]
     else []) ++
    ((coords.zip coords.tail).flatMap fun pr =>
      let s := max (pr.1.2 - ctx) 0
      let e := min (pr.2.1 + ctx) L
      if M ≤ e - s then [(s, e)] else []) ++
    (if lastR.2 < L ∧ M ≤ L - max (lastR.2 - ctx) 0 then [(max (lastR.2 - ctx) 0, L)]
     else [])

theorem interiorGaps_eq_spec (L ctx M : Int) :
    ∀ coords : List (Int × Int),
      interiorGaps L ctx M coords =
        (coords.zip coords.tail).flatMap fun pr =>
          if M ≤ min (pr.2.1 + ctx) L - max (pr.1.2 - ctx) 0 then
            [(max (pr.1.2 - ctx) 0, min (pr.2.1 + ctx) L)]
          else []
  | [] => by simp [interiorGaps]
  | [a] => by simp [interiorGaps]
  | a :: b :: rest => by
    have hs : (if a.2 - ctx < 0 then 0 else a.2 - ctx) = max (a.2 - ctx) 0 := by omega
    have he : (if b.1 + ctx > L then L else b.1 + ctx) = min (b.1 + ctx) L := by omega
    show (if _ ≥ M then _ else _) ++ interiorGaps L ctx M (b :: rest) = _
    rw [hs, he, interiorGaps_eq_spec L ctx M (b :: rest)]
    simp

/-- C3: for every sequence length `L`, context `C`, threshold `M`, and
nonempty covered-region list, the gap extractor emits exactly the leading
candidate `[0, min(R_0.start + C, L))` when `R_0.start > 0`, the interior
candidate `[max(R_i.stop - C, 0), min(R_{i+1}.start + C, L))` for each
adjacent pair, and the trailing candidate `[max(R_{n-1}.stop - C, 0), L)`
when `R_{n-1}.stop < L`, each emitted iff its length is `>= M`, and nothing
else: the source-derived computation coincides with the specification's
contract `gapExtractorSpec`. -/
theorem gap_extractor_emits_exactly_spec (L ctx M : Int) (first : Int × Int)
    (rest : List (Int × Int)) :
    poor_mapping_coords_contig L (first :: rest) ctx M =
      gapExtractorSpec L ctx M (first :: rest) := by
  simp only [poor_mapping_coords_contig, gapExtractorSpec]
  rw [interiorGaps_eq_spec]
  generalize (first :: rest).getLastD (0, 0) = t
  have h1 : (if first.1 + ctx > L then L else first.1 + ctx) = min (first.1 + ctx) L := by
    omega
  have h2 : (if t.2 - ctx < 0 then 0 else t.2 - ctx) = max (t.2 - ctx) 0 := by omega
  rw [h1, h2]
  split_ifs <;> first | rfl | (exfalso; omega)

theorem interiorGaps_bounds (L ctx M : Int) :
    ∀ coords : List (Int × Int), ∀ r ∈ interiorGaps L ctx M coords,
      M ≤ r.2 - r.1 ∧ (0 ≤ M → r.1 ≤ r.2)
  | [] => by simp [interiorGaps]
  | [a] => by simp [interiorGaps]
  | a :: b :: rest => by
    intro r hr
    rw [interiorGaps] at hr
    rcases List.mem_append.mp hr with hr | hr
    · split_ifs at hr <;> simp only [List.mem_singleton, List.not_mem_nil] at hr <;>
        first
        | exact hr.elim
        | (subst hr; dsimp only; omega)
    · exact interiorGaps_bounds L ctx M (b :: rest) r hr

theorem poor_contig_bounds (L ctx M : Int) (coords : List (Int × Int)) :
    ∀ r ∈ poor_mapping_coords_contig L coords ctx M,
      M ≤ r.2 - r.1 ∧ (0 ≤ M → r.1 ≤ r.2) := by
  cases coords with
  | nil => simp [poor_mapping_coords_contig]
  | cons first rest =>
    intro r hr
    simp only [poor_mapping_coords_contig] at hr
    rcases List.mem_append.mp hr with hr | hr
    · rcases List.mem_append.mp hr with hr | hr
      · split_ifs at hr <;> simp only [List.mem_singleton, List.not_mem_nil] at hr <;>
          first
          | exact hr.elim
          | (subst hr; dsimp only; omega)
      · exact interiorGaps_bounds L ctx M (first :: rest) r hr
    · split_ifs at hr <;> simp only [List.mem_singleton, List.not_mem_nil] at hr <;>
        first
        | exact hr.elim
        | (subst hr; dsimp only; omega)

theorem lookup_cons (c k : String) {β : Type} (v : β) (l : List (String × β)) :
    List.lookup c ((k, v) :: l) = if c = k then some v else List.lookup c l := by
  by_cases h : c = k
  · simp [List.lookup, h]
  · have hb : (c == k) = false := beq_eq_false_iff_ne.mpr h
    simp [List.lookup, hb, h]

theorem gapEntry_key (cov : List (String × List (Int × Int))) (ctx M : Int)
    (cl : String × Int) : (gapEntry cov ctx M cl).1 = cl.1 := by
  cases h : List.lookup cl.1 cov <;> simp [gapEntry, h]

/-- The dictionary produced by the gap extractor, seen through lookup: the
entry of a contig is determined by its length-table entry. -/
theorem lookup_gap_output (contig_lengths : List (String × Int))
    (cov : List (String × List (Int × Int))) (ctx M : Int) (c : String) :
    List.lookup c (get_poor_mapping_coverage_coordinates contig_lengths cov ctx M) =
      Option.map (fun L => (gapEntry cov ctx M (c, L)).2) (List.lookup c contig_lengths) := by
  unfold get_poor_mapping_coverage_coordinates
  induction contig_lengths with
  | nil => rfl
  | cons a rest ih =>
    obtain ⟨k, v⟩ := a
    rw [List.map_cons]
    have hg : gapEntry cov ctx M (k, v) = (k, (gapEntry cov ctx M (k, v)).2) := by
      conv_lhs => rw [← Prod.mk.eta (p := gapEntry cov ctx M (k, v))]
      rw [gapEntry_key]
    rw [hg, lookup_cons, lookup_cons]
    by_cases h : c = k
    · rw [if_pos h, if_pos h]
      subst h
      rfl
    · rw [if_neg h, if_neg h, ih]

/-- C4: a sequence present in the length table with length `L` but with no
covered regions gets exactly the single full-sequence gap region `(0, L)`,
for every context and every minimum-size threshold — the fallback is
unconditional and bypasses the threshold. -/
theorem gap_full_sequence_fallback
    (contig_lengths : List (String × Int)) (cov : List (String × List (Int × Int)))
    (ctx M : Int) (c : String) (L : Int)
    (hlen : List.lookup c contig_lengths = some L)
    (hcov : List.lookup c cov = none) :
    List.lookup c (get_poor_mapping_coverage_coordinates contig_lengths cov ctx M) =
      some [(0, L)] := by
  rw [lookup_gap_output, hlen]
  simp [gapEntry, hcov]

/-- Witness for C4: length table `{"c": 7}`, no coverage, even with a
threshold (100) far larger than the sequence. -/
theorem gap_full_sequence_fallback_witness :
    List.lookup "c" [("c", (7 : Int))] = some 7 ∧
      List.lookup "c" ([] : List (String × List (Int × Int))) = none ∧
      List.lookup "c" (get_poor_mapping_coverage_coordinates [("c", 7)] [] 50 100) =
        some [(0, 7)] :=
  ⟨by decide, rfl, gap_full_sequence_fallback _ _ 50 100 "c" 7 (by decide) rfl⟩

/-- C5 counterexample: with length table `{"c": 5}`, no coverage, context 0
and threshold `minimumSizeRemap = 100`, the gap extractor returns the
full-sequence fallback `(0, 5)`, whose length `5` is smaller than the
threshold — refuting the claim that every returned region has length
`>= minimumSizeRemap`. -/
theorem gap_threshold_counterexample :
    get_poor_mapping_coverage_coordinates [("c", 5)] [] 0 100 = [("c", [(0, 5)])] ∧
      ¬(100 ≤ (5 : Int) - 0) := ⟨by decide, by decide⟩

/-- C5 (amended): provided the threshold is nonnegative and every table
length is nonnegative, every region returned by the gap extractor satisfies
`start <= stop`; and every returned region has length `>= minimumSizeRemap`
except possibly the full-sequence fallback of a sequence with no covered
regions (which is `(0, L)` and bypasses the threshold). -/
theorem gap_extractor_region_bounds
    (contig_lengths : List (String × Int)) (cov : List (String × List (Int × Int)))
    (ctx M : Int) (hM : 0 ≤ M) (hL : ∀ cl ∈ contig_lengths, 0 ≤ cl.2) :
    ∀ pr ∈ get_poor_mapping_coverage_coordinates contig_lengths cov ctx M,
      ∀ r ∈ pr.2, r.1 ≤ r.2 ∧ (M ≤ r.2 - r.1 ∨ List.lookup pr.1 cov = none) := by
  intro pr hpr r hr
  unfold get_poor_mapping_coverage_coordinates at hpr
  rcases List.mem_map.mp hpr with ⟨cl, hcl, rfl⟩
  have hkey := gapEntry_key cov ctx M cl
  cases hc : List.lookup cl.1 cov with
  | some coords =>
    have hpr2 : (gapEntry cov ctx M cl).2 = poor_mapping_coords_contig cl.2 coords ctx M := by
      simp [gapEntry, hc]
    rw [hpr2] at hr
    have hb := poor_contig_bounds cl.2 ctx M coords r hr
    exact ⟨hb.2 hM, Or.inl hb.1⟩
  | none =>
    have hpr2 : (gapEntry cov ctx M cl).2 = [(0, cl.2)] := by simp [gapEntry, hc]
    rw [hpr2] at hr
    rcases List.mem_singleton.mp hr with rfl
    refine ⟨by simpa using hL cl hcl, Or.inr ?_⟩
    rw [hkey, hc]

/-- Witness for C5 (amended) at a concrete input with one covered sequence
producing a leading gap `(0,3)` and a trailing gap `(3,10)`; instantiated at
the leading gap. -/
theorem gap_extractor_region_bounds_witness :
    (0 : Int) ≤ 2 ∧ (∀ cl ∈ [("a", (10 : Int))], 0 ≤ cl.2) ∧
      ((0 : Int) ≤ 3 ∧
        ((2 : Int) ≤ 3 - 0 ∨ List.lookup "a" [("a", [((2 : Int), (4 : Int))])] = none)) :=
  ⟨by decide, by decide,
    gap_extractor_region_bounds [("a", 10)] [("a", [(2, 4)])] 1 2 (by decide) (by decide)
      ("a", [(0, 3), (3, 10)]) (by decide) (0, 3) (by decide)⟩

/-- C8 counterexample: the sequence `"c"` has covered regions but no entry
in the (empty) length table; gap extraction completes normally with an empty
result — it emits nothing for `"c"` and raises no error, rather than
surfacing a `MissingLength` failure.  (The Python loop iterates over
`contig_lengths` only, so sequences absent from it are never touched.) -/
theorem missing_length_counterexample :
    get_poor_mapping_coverage_coordinates [] [("c", [(0, 5)])] 7 3 = [] ∧
      List.lookup "c" (get_poor_mapping_coverage_coordinates [] [("c", [(0, 5)])] 7 3) =
        none :=
  ⟨rfl, rfl⟩

/-- C8 (amended): a sequence with no entry in the length table is silently
ignored by gap extraction — the function completes normally and its output
contains no entry for that sequence, whether or not the sequence has covered
regions; no error is raised. -/
theorem gap_extractor_ignores_missing_length
    (contig_lengths : List (String × Int)) (cov : List (String × List (Int × Int)))
    (ctx M : Int) (c : String) (h : List.lookup c contig_lengths = none) :
    List.lookup c (get_poor_mapping_coverage_coordinates contig_lengths cov ctx M) =
      none := by
  rw [lookup_gap_output, h]
  rfl

/-- Witness for C8 (amended): the covered sequence `"b"` is missing from the
length table and gets no output entry. -/
theorem gap_extractor_ignores_missing_length_witness :
    List.lookup "b" [("a", (4 : Int))] = none ∧
      List.lookup "b"
          (get_poor_mapping_coverage_coordinates [("a", 4)] [("b", [(0, 2)])] 0 0) =
        none :=
  ⟨by decide, gap_extractor_ignores_missing_length _ _ 0 0 "b" (by decide)⟩

/-! ## Coordinate relocation (`relocate_remapped_fragments_to_source_contigs`)

Field values of a mapping record are embedded as `List Char` (one entry per
whitespace-separated field of the line), so that the string surgery of the
Python code — `"segment" in parsed[0]`, `parsed[0].split("_segment_")`,
`name.split("_")[-3]`, `int(...)`, `str(...)` — can be reasoned about. -/

/-- Index of the first occurrence of `sep` as a contiguous substring of `s`
(`none` when `sep` does not occur). -/
def findSub (sep : List Char) : List Char → Option Nat
  | [] => if sep.isPrefixOf ([] : List Char) then some 0 else none
  | c :: rest =>
    if sep.isPrefixOf (c :: rest) then some 0
    else (findSub sep rest).map (· + 1)

/-- Model of Python's substring test `sep in s`. -/
def containsSub (sep s : List Char) : Bool := (findSub sep s).isSome

/-- Fuel-driven worker for `splitOnSub`; the fuel only needs to be at least
`s.length` for the answer to be the true split. -/
def splitOnSubAux (sep : List Char) : Nat → List Char → List (List Char)
  | 0, s => [s]
  | fuel + 1, s =>
    match findSub sep s with
    | none => [s]
    | some i => s.take i :: splitOnSubAux sep fuel (s.drop (i + sep.length))

/-- Model of Python's `s.split(sep)` for a non-empty separator: cut at each
successive leftmost non-overlapping occurrence of `sep`. -/
def splitOnSub (sep s : List Char) : List (List Char) :=
  if sep = [] then [s] else splitOnSubAux sep s.length s

theorem isPrefixOf_length {a : List Char} :
    ∀ {b : List Char}, a.isPrefixOf b = true → a.length ≤ b.length := by
  induction a with
  | nil => intro b _; simp
  | cons c cs ih =>
    intro b h
    cases b with
    | nil => simp [List.isPrefixOf] at h
    | cons d ds =>
      simp only [List.isPrefixOf, Bool.and_eq_true] at h
      simpa using ih h.2

theorem isPrefixOf_iff_append {a b : List Char} :
    a.isPrefixOf b = true ↔ ∃ t, a ++ t = b := by
  induction a generalizing b with
  | nil => simp [List.isPrefixOf]
  | cons c cs ih =>
    cases b with
    | nil =>
      simp [List.isPrefixOf]
    | cons d ds =>
      simp only [List.isPrefixOf, Bool.and_eq_true, beq_iff_eq, ih, List.cons_append,
        List.cons.injEq]
      constructor
      · rintro ⟨rfl, t, rfl⟩; exact ⟨t, rfl, rfl⟩
      · rintro ⟨t, rfl, rfl⟩; exact ⟨rfl, t, rfl⟩

theorem isPrefixOf_append_self (a t : List Char) : a.isPrefixOf (a ++ t) = true :=
  isPrefixOf_iff_append.mpr ⟨t, rfl⟩

theorem findSub_some_bound {sep : List Char} :
    ∀ {s : List Char} {i : Nat}, findSub sep s = some i → i + sep.length ≤ s.length := by
  intro s
  induction s with
  | nil =>
    intro i h
    unfold findSub at h
    split_ifs at h with hp
    cases h
    simpa using isPrefixOf_length hp
  | cons c rest ih =>
    intro i h
    unfold findSub at h
    split_ifs at h with hp
    · cases h
      simpa using isPrefixOf_length hp
    · rcases Option.map_eq_some'.mp h with ⟨j, hj, rfl⟩
      have := ih hj
      simp only [List.length_cons]
      omega

theorem findSub_none_of_missing {sep s : List Char} {c : Char} (hc : c ∈ sep)
    (hs : c ∉ s) : findSub sep s = none := by
  induction s with
  | nil =>
    unfold findSub
    rcases sep with _ | ⟨d, ds⟩
    · cases hc
    · simp [List.isPrefixOf]
  | cons d rest ih =>
    unfold findSub
    have hp : ¬sep.isPrefixOf (d :: rest) = true := by
      intro hpre
      rcases isPrefixOf_iff_append.mp hpre with ⟨t, ht⟩
      exact hs (ht ▸ List.mem_append_left t hc)
    rw [if_neg hp, ih fun h => hs (List.mem_cons_of_mem _ h)]
    rfl

theorem findSub_isSome_of_occurrence {sep s : List Char} (i : Nat)
    (h : sep.isPrefixOf (s.drop i) = true) : (findSub sep s).isSome = true := by
  induction s generalizing i with
  | nil =>
    rw [List.drop_nil] at h
    unfold findSub
    rw [if_pos h]
    rfl
  | cons c rest ih =>
    unfold findSub
    split_ifs with hp
    · rfl
    · cases i with
      | zero => exact absurd h hp
      | succ j =>
        have := ih j (by simpa using h)
        rcases Option.isSome_iff_exists.mp this with ⟨k, hk⟩
        simp [hk]

theorem splitOnSubAux_none (sep s : List Char) (fuel : Nat)
    (h : findSub sep s = none) : splitOnSubAux sep fuel s = [s] := by
  cases fuel <;> simp [splitOnSubAux, h]

theorem splitOnSub_none (sep s : List Char) (h : findSub sep s = none) :
    splitOnSub sep s = [s] := by
  unfold splitOnSub
  split_ifs
  · rfl
  · exact splitOnSubAux_none sep s s.length h

theorem findSub_nil (sep : List Char) (hsep : sep ≠ []) : findSub sep [] = none := by
  unfold findSub
  rw [if_neg]
  intro hp
  rcases isPrefixOf_iff_append.mp hp with ⟨t, ht⟩
  exact hsep (List.append_eq_nil.mp ht).1

theorem splitOnSubAux_fuel (sep : List Char) (hsep : sep ≠ []) :
    ∀ (fuel1 fuel2 : Nat) (s : List Char), s.length ≤ fuel1 → s.length ≤ fuel2 →
      splitOnSubAux sep fuel1 s = splitOnSubAux sep fuel2 s := by
  intro fuel1
  induction fuel1 with
  | zero =>
    intro fuel2 s h1 _
    have hs : s = [] := List.eq_nil_of_length_eq_zero (by omega)
    subst hs
    rw [splitOnSubAux_none _ _ _ (findSub_nil sep hsep),
      splitOnSubAux_none _ _ _ (findSub_nil sep hsep)]
  | succ f1 ih =>
    intro fuel2 s h1 h2
    cases fuel2 with
    | zero =>
      have hs : s = [] := List.eq_nil_of_length_eq_zero (by omega)
      subst hs
      rw [splitOnSubAux_none _ _ _ (findSub_nil sep hsep),
        splitOnSubAux_none _ _ _ (findSub_nil sep hsep)]
    | succ f2 =>
      cases hf : findSub sep s with
      | none => rw [splitOnSubAux_none _ _ _ hf, splitOnSubAux_none _ _ _ hf]
      | some i =>
        have hb := findSub_some_bound hf
        have hlen : 1 ≤ sep.length := List.length_pos.mpr hsep
        simp only [splitOnSubAux, hf]
        congr 1
        exact ih f2 _ (by rw [List.length_drop]; omega) (by rw [List.length_drop]; omega)

theorem findSub_append (sep b : List Char) (hsep : sep ≠ []) :
    ∀ a : List Char,
      (∀ j, j < a.length → sep.isPrefixOf ((a ++ sep ++ b).drop j) = false) →
      findSub sep (a ++ sep ++ b) = some a.length := by
  intro a
  induction a with
  | nil =>
    intro _
    show findSub sep (sep ++ b) = some 0
    rcases List.exists_cons_of_ne_nil hsep with ⟨c, cs, rfl⟩
    rw [List.cons_append]
    unfold findSub
    rw [if_pos ((List.cons_append c cs b) ▸ isPrefixOf_append_self (c :: cs) b)]
  | cons c a' ih =>
    intro hpre
    show findSub sep (c :: (a' ++ sep ++ b)) = some (a'.length + 1)
    have h0 : sep.isPrefixOf (c :: (a' ++ sep ++ b)) = false := by
      have h := hpre 0 (by simp)
      simpa only [List.drop_zero, List.cons_append] using h
    unfold findSub
    rw [if_neg (fun hc => Bool.false_ne_true (h0 ▸ hc)), ih fun j hj => by
      have h2 := hpre (j + 1) (by simp only [List.length_cons]; omega)
      simp only [List.cons_append, List.drop_succ_cons] at h2
      exact h2]
    rfl

theorem splitOnSub_append (sep a b : List Char) (hsep : sep ≠ [])
    (hpre : ∀ j, j < a.length → sep.isPrefixOf ((a ++ sep ++ b).drop j) = false) :
    splitOnSub sep (a ++ sep ++ b) = a :: splitOnSub sep b := by
  unfold splitOnSub
  rw [if_neg hsep, if_neg hsep]
  have hf := findSub_append sep b hsep a hpre
  have hlen : 1 ≤ sep.length := List.length_pos.mpr hsep
  obtain ⟨n, hn⟩ : ∃ n, (a ++ sep ++ b).length = n + 1 := by
    refine ⟨(a ++ sep ++ b).length - 1, ?_⟩
    simp only [List.length_append]
    omega
  rw [hn]
  simp only [splitOnSubAux, hf]
  congr 1
  · rw [List.append_assoc]
    exact List.take_left a (sep ++ b)
  · have hdrop : (a ++ sep ++ b).drop (a.length + sep.length) = b := by
      have : (a ++ sep).length = a.length + sep.length := by simp
      rw [← this]
      exact List.drop_left (a ++ sep) b
    rw [hdrop]
    refine splitOnSubAux_fuel sep hsep n b.length b ?_ (le_refl _)
    have := congrArg id hn
    simp only [List.length_append] at hn
    omega

theorem single_char_no_occurrence {u : Char} {a : List Char} (h : u ∉ a)
    (rest : List Char) :
    ∀ j, j < a.length → ([u].isPrefixOf ((a ++ [u] ++ rest).drop j)) = false := by
  intro j hj
  by_contra hcon
  rw [Bool.not_eq_false] at hcon
  rcases isPrefixOf_iff_append.mp hcon with ⟨t, ht⟩
  rw [List.append_assoc, List.drop_append_eq_append_drop] at ht
  have hj0 : j - a.length = 0 := by omega
  rw [hj0, List.drop_zero] at ht
  have hne : a.drop j ≠ [] := by
    intro he
    have := congrArg List.length he
    simp only [List.length_drop, List.length_nil] at this
    omega
  rcases List.exists_cons_of_ne_nil hne with ⟨d, ds, hd⟩
  rw [hd] at ht
  simp only [List.singleton_append, List.cons_append, List.cons.injEq] at ht
  apply h
  have hdmem : d ∈ a.drop j := hd ▸ List.mem_cons_self d ds
  exact ht.1 ▸ List.mem_of_mem_drop hdmem

/-- The fragment marker the code splits on: `parsed[0].split("_segment_")`. -/
def segMarker : List Char := "_segment_".toList

/-- The substring the code tests for: `if "segment" in parsed[0]`. -/
def segWord : List Char := "segment".toList

/-- Python exceptions that the relocation loop body can raise. -/
inductive PyErr
  | indexError
  | valueError
deriving DecidableEq

deriving instance DecidableEq for Except

/-- Python list indexing `l[i]` for `i >= 0`: raises `IndexError` when out
of range. -/
def pyGet {α : Type} (l : List α) (i : Nat) : Except PyErr α :=
  match l.get? i with
  | some a => Except.ok a
  | none => Except.error PyErr.indexError

/-- Python negative indexing `l[-k]` (for `k >= 1`): the element `k` places
from the end; raises `IndexError` when the list is shorter than `k`. -/
def pyGetNeg {α : Type} (l : List α) (k : Nat) : Except PyErr α :=
  if k ≤ l.length then pyGet l (l.length - k) else Except.error PyErr.indexError

/-- The ASCII whitespace characters that Python's `int(s)` strips from both
ends of its argument. -/
def pySpace (c : Char) : Bool :=
  c == ' ' || c == '\t' || c == '\n' || c == '\x0b' || c == '\x0c' || c == '\r'

/-- Strip leading and trailing ASCII whitespace, as `int(s)` does. -/
def pyStrip (s : List Char) : List Char :=
  ((s.dropWhile pySpace).reverse.dropWhile pySpace).reverse

/-- The tail of a Python decimal literal after its first digit: a run of
digits in which a single underscore may separate two digits ([PEP 515]
grouping, as accepted by `int(s)`); accumulates the value. -/
def digitsGroupedAux : Nat → List Char → Option Nat
  | acc, [] => some acc
  | acc, '_' :: c :: rest =>
    if c.isDigit then digitsGroupedAux (10 * acc + (c.toNat - '0'.toNat)) rest else none
  | acc, c :: rest =>
    if c.isDigit then digitsGroupedAux (10 * acc + (c.toNat - '0'.toNat)) rest else none

/-- A non-empty unsigned Python decimal literal: a digit, then digits with
optional single-underscore grouping (no leading, trailing or doubled
underscore). -/
def digitsGrouped? : List Char → Option Nat
  | [] => none
  | c :: rest =>
    if c.isDigit then digitsGroupedAux (c.toNat - '0'.toNat) rest else none

/-- Model of Python `int(s)` for base 10 on ASCII strings: strip ASCII
whitespace, accept an optional `'+'` or `'-'` sign followed by a non-empty
digit run with optional single-underscore grouping; anything else raises
`ValueError` (modelled as `none`).  (Python additionally converts non-ASCII
Unicode decimal digits and Unicode whitespace; those are outside the ASCII
surface modelled here, and theorems concluding a parse failure therefore
restrict the token to ASCII.) -/
def str2int? (s : List Char) : Option Int :=
  match pyStrip s with
  | '+' :: rest => (digitsGrouped? rest).map fun n => (n : Int)
  | '-' :: rest => (digitsGrouped? rest).map fun n => -(n : Int)
  | t => (digitsGrouped? t).map fun n => (n : Int)

/-- Model of Python `str(n)` for an integer. -/
def int2str (n : Int) : List Char :=
  if n < 0 then '-' :: Nat.toDigits 10 (-n).toNat else Nat.toDigits 10 n.toNat

/-- Python `int(s)` as an `Except` computation: `ValueError` exactly when
`str2int?` rejects. -/
def pyInt (s : List Char) : Except PyErr Int :=
  match str2int? s with
  | some n => Except.ok n
  | none => Except.error PyErr.valueError

example : str2int? "100".toList = some 100 := by decide
example : str2int? "+5".toList = some 5 := by decide
example : str2int? "-17".toList = some (-17) := by decide
example : str2int? "1_0".toList = some 10 := by decide
example : str2int? " 42\t".toList = some 42 := by decide
example : str2int? "abc".toList = none := by decide
example : str2int? "".toList = none := by decide
example : str2int? "+".toList = none := by decide
example : str2int? "_1".toList = none := by decide
example : str2int? "1_".toList = none := by decide
example : str2int? "1__0".toList = none := by decide
example : str2int? "+ 5".toList = none := by decide
example : str2int? "5 0".toList = none := by decide

/-- Embedding of the per-record loop body of
`relocate_remapped_fragments_to_source_contigs` (`mapping_functions.py`,
lines 283-301).  `parsed` is the whitespace-split field list of one mapping
line (`parsed = line.split()`); the output record is the field list of the
written line (`new_line` joins its pieces with tabs).  Each Python
subexpression appears in the source's evaluation order, and the Python
exceptions (`IndexError` from `parsed[i]` and `[-3]`, `ValueError` from
`int(...)`) are modelled by `Except.error`. -/
def relocate_record (parsed : List (List Char)) : Except PyErr (List (List Char)) := do
  let p0 ← pyGet parsed 0
  if containsSub segWord p0 then
    let name_parsed := splitOnSub segMarker p0
    let new_name ← pyGet name_parsed 0
    let np1 ← pyGet name_parsed 1
    let seg_tok ← pyGetNeg (splitOnSub ['_'] np1) 3
    let segment_start ← pyInt seg_tok
    let p2 ← pyGet parsed 2
    let v2 ← pyInt p2
    let mapping_start := segment_start + v2
    let p3 ← pyGet parsed 3
    let v3 ← pyInt p3
    let mapping_stop := segment_start + v3
    let p1 ← pyGet parsed 1
    pure (new_name :: p1 :: int2str mapping_start :: int2str mapping_stop :: parsed.drop 4)
  else
    pure parsed

/-- The exact synthetic name built by `get_poor_mapping_sequences`
(`mapping_functions.py`, line 214):
`contig_name + "_segment_start_" + str(start) + "_stop_" + str(stop)`,
with the digit strings abstracted. -/
def fragmentName (parent sd ed : List Char) : List Char :=
  parent ++ segMarker ++ ("start_".toList ++ sd ++ "_stop_".toList ++ ed)

example : fragmentName "X".toList "100".toList "200".toList =
    "X_segment_start_100_stop_200".toList := by decide

example : relocate_record ["X_segment_start_100_stop_200".toList, "q".toList,
    "10".toList, "50".toList] =
    Except.ok ["X".toList, "q".toList, "110".toList, "150".toList] := by decide

example : relocate_record ["segmented1".toList, "f".toList, "3".toList, "4".toList] =
    Except.error PyErr.indexError := by decide

example : relocate_record ["A_segment_B_segment_start_100_stop_200".toList, "q".toList,
    "10".toList, "50".toList] = Except.error PyErr.indexError := by decide

example : relocate_record ["X_segment_start_abc_stop_200".toList, "q".toList,
    "10".toList, "50".toList] = Except.error PyErr.valueError := by decide

example : relocate_record ["X_segment_1_2_3_4_5".toList, "f".toList, "3".toList,
    "4".toList] = Except.ok ["X".toList, "f".toList, "6".toList, "7".toList] := by decide

example : relocate_record ["X_segment_foo_bar_baz".toList, "f".toList, "3".toList,
    "4".toList] = Except.error PyErr.valueError := by decide

example : relocate_record ["X_segment_start_+5_stop_200".toList, "q".toList,
    "10".toList, "50".toList] =
    Except.ok ["X".toList, "q".toList, "15".toList, "55".toList] := by decide

theorem ebind_ok {α β : Type} (a : α) (f : α → Except PyErr β) :
    (Except.ok a : Except PyErr α) >>= f = f a := rfl

theorem ebind_err {α β : Type} (e : PyErr) (f : α → Except PyErr β) :
    (Except.error e : Except PyErr α) >>= f = Except.error e := rfl

theorem epure {α : Type} (a : α) : (pure a : Except PyErr α) = Except.ok a := rfl

theorem ite_true_triv {α : Type} (a b : α) : (if true = true then a else b) = a := rfl

theorem ite_false_triv {α : Type} (a b : α) : (if false = true then a else b) = b := rfl

theorem pyGet_zero {α : Type} (x : α) (l : List α) : pyGet (x :: l) 0 = Except.ok x := rfl

theorem pyGet_succ {α : Type} (x : α) (l : List α) (n : Nat) :
    pyGet (x :: l) (n + 1) = pyGet l n := rfl

theorem pyGetNeg_four {α : Type} (w x y z : α) :
    pyGetNeg [w, x, y, z] 3 = Except.ok x := rfl

theorem pyGet_ok_iff {α : Type} (l : List α) (i : Nat) (a : α) :
    pyGet l i = Except.ok a ↔ l.get? i = some a := by
  unfold pyGet
  cases h : l.get? i <;> simp

/-- Every character of the digit-bracketed tail of a fragment name is a
letter of `start`/`stop`, an underscore, or a digit — in particular the
letter `g` of the `_segment_` marker never occurs in it, so the marker
cannot occur in the tail. -/
theorem findSub_marker_tail_none (sd ed : List Char)
    (hsd : ∀ c ∈ sd, c.isDigit = true) (hed : ∀ c ∈ ed, c.isDigit = true) :
    findSub segMarker ("start_".toList ++ sd ++ "_stop_".toList ++ ed) = none := by
  apply findSub_none_of_missing (c := 'g')
  · decide
  · intro hmem
    rcases List.mem_append.mp hmem with hmem | hmem
    · rcases List.mem_append.mp hmem with hmem | hmem
      · rcases List.mem_append.mp hmem with hmem | hmem
        · exact absurd hmem (by decide)
        · exact absurd (hsd _ hmem) (by decide)
      · exact absurd hmem (by decide)
    · exact absurd (hed _ hmem) (by decide)

/-- A fragment name always contains the bare word `segment`, so the
relocator always takes the fragment branch on it. -/
theorem segWord_in_fragmentName (parent sd ed : List Char) :
    containsSub segWord (fragmentName parent sd ed) = true := by
  unfold containsSub
  have hocc : segWord.isPrefixOf
      ((fragmentName parent sd ed).drop (parent.length + 1)) = true := by
    apply isPrefixOf_iff_append.mpr
    refine ⟨"_".toList ++ ("start_".toList ++ sd ++ "_stop_".toList ++ ed), ?_⟩
    unfold fragmentName segMarker
    rw [List.drop_append_eq_append_drop, List.drop_append_eq_append_drop]
    have h1 : parent.length + 1 - parent.length = 1 := by omega
    have h2 : parent.drop (parent.length + 1) = [] := List.drop_eq_nil_of_le (by omega)
    have h3 : parent.length + 1 - (parent ++ "_segment_".toList).length = 0 := by
      have h9 : ("_segment_".toList : List Char).length = 9 := by decide
      simp only [List.length_append, h9]
      omega
    rw [h1, h2, h3]
    simp only [List.nil_append, List.drop_zero]
    rfl
  exact findSub_isSome_of_occurrence _ hocc

/-- Splitting a fragment name on `_segment_`: when the marker's first
occurrence is at the parent boundary and the encoded coordinates are digit
strings, the split is exactly `[parent, tail]`. -/
theorem splitOnSub_fragmentName (parent sd ed : List Char)
    (hsd : ∀ c ∈ sd, c.isDigit = true) (hed : ∀ c ∈ ed, c.isDigit = true)
    (hpre : ∀ j, j < parent.length →
      segMarker.isPrefixOf ((fragmentName parent sd ed).drop j) = false) :
    splitOnSub segMarker (fragmentName parent sd ed) =
      [parent, "start_".toList ++ sd ++ "_stop_".toList ++ ed] := by
  unfold fragmentName at hpre ⊢
  rw [splitOnSub_append segMarker parent _ (by decide) hpre,
    splitOnSub_none _ _ (findSub_marker_tail_none sd ed hsd hed)]

/-- Splitting the tail of a fragment name on `_` yields the four tokens
`start`, the start digits, `stop`, the stop digits, as long as the two
middle pieces contain no underscore. -/
theorem splitOnSub_tail_underscores (sd ed : List Char)
    (hsd : '_' ∉ sd) (hed : '_' ∉ ed) :
    splitOnSub ['_'] ("start_".toList ++ sd ++ "_stop_".toList ++ ed) =
      ["start".toList, sd, "stop".toList, ed] := by
  have hshape : ("start_".toList ++ sd ++ "_stop_".toList ++ ed : List Char) =
      "start".toList ++ ['_'] ++ (sd ++ ['_'] ++ ("stop".toList ++ ['_'] ++ ed)) := by
    simp only [List.append_assoc]
    rfl
  rw [hshape,
    splitOnSub_append ['_'] "start".toList _ (by decide)
      (single_char_no_occurrence (by decide) _),
    splitOnSub_append ['_'] sd _ (by decide) (single_char_no_occurrence hsd _),
    splitOnSub_append ['_'] "stop".toList _ (by decide)
      (single_char_no_occurrence (by decide) _),
    splitOnSub_none _ _ (findSub_none_of_missing (by decide) hed)]

/-- C6 counterexample: a name of the fragment form
`<parentId>_segment_start_<s>_stop_<e>` whose `parentId` itself contains
`_segment_` is not relocated onto that parent.  `split("_segment_")` cuts at
the *first* marker, so for `parentId = A_segment_B` the middle piece `"B"`
has no `[-3]` token and the code raises an IndexError; worse, for
`parentId = A_segment_1_2_3` the middle piece `"1_2_3"` parses, and the
record is *silently* relocated onto `A` with the bogus offset `1`
(coordinates `11`, `51`) instead of onto `A_segment_1_2_3` with offset
`100` (coordinates `110`, `150`). -/
theorem relocator_nested_marker_counterexample :
    (relocate_record ["A_segment_B_segment_start_100_stop_200".toList, "q".toList,
        "10".toList, "50".toList] = Except.error PyErr.indexError ∧
      relocate_record ["A_segment_B_segment_start_100_stop_200".toList, "q".toList,
          "10".toList, "50".toList] ≠
        Except.ok ["A_segment_B".toList, "q".toList, "110".toList, "150".toList]) ∧
      (relocate_record ["A_segment_1_2_3_segment_start_100_stop_200".toList, "q".toList,
          "10".toList, "50".toList] =
          Except.ok ["A".toList, "q".toList, "11".toList, "51".toList] ∧
        relocate_record ["A_segment_1_2_3_segment_start_100_stop_200".toList, "q".toList,
            "10".toList, "50".toList] ≠
          Except.ok ["A_segment_1_2_3".toList, "q".toList, "110".toList,
            "150".toList]) := by
  decide

/-- C6 (amended): for every record whose subject identifier has the
fragment form `<parentId>_segment_start_<s>_stop_<e>` with digit strings
`<s>`, `<e>` and with the marker `_segment_` occurring no earlier than the
parent boundary (in particular the parent itself contains no `_segment_`),
the relocator outputs the record with subject rewritten to `parentId` and
both coordinates shifted by `+s`; the other fields are carried over.
Without the marker-boundary restriction the contract fails, as
`relocator_nested_marker_counterexample` shows. -/
theorem relocator_shifts_fragment_coordinates
    (parent sd ed f1 a2 a3 : List Char) (rest : List (List Char)) (s v2 v3 : Int)
    (hsd : ∀ c ∈ sd, c.isDigit = true) (hed : ∀ c ∈ ed, c.isDigit = true)
    (hpre : ∀ j, j < parent.length →
      segMarker.isPrefixOf ((fragmentName parent sd ed).drop j) = false)
    (hs : str2int? sd = some s) (hv2 : str2int? a2 = some v2)
    (hv3 : str2int? a3 = some v3) :
    relocate_record (fragmentName parent sd ed :: f1 :: a2 :: a3 :: rest) =
      Except.ok (parent :: f1 :: int2str (s + v2) :: int2str (s + v3) :: rest) := by
  have hw := segWord_in_fragmentName parent sd ed
  have hsplit1 := splitOnSub_fragmentName parent sd ed hsd hed hpre
  have hu_sd : '_' ∉ sd := fun hm => absurd (hsd _ hm) (by decide)
  have hu_ed : '_' ∉ ed := fun hm => absurd (hed _ hm) (by decide)
  have hsplit2 := splitOnSub_tail_underscores sd ed hu_sd hu_ed
  have eint_s : pyInt sd = Except.ok s := by unfold pyInt; rw [hs]
  have eint2 : pyInt a2 = Except.ok v2 := by unfold pyInt; rw [hv2]
  have eint3 : pyInt a3 = Except.ok v3 := by unfold pyInt; rw [hv3]
  unfold relocate_record
  simp only [pyGet_zero, pyGet_succ, ebind_ok, hw, ite_true_triv, hsplit1, hsplit2,
    pyGetNeg_four, eint_s, eint2, eint3, epure]
  rfl

/-- Witness for C6 (amended): the spec's concrete scenario — fragment
`X_segment_start_100_stop_200`, local alignment `(10, 50)`, relocated to
`(110, 150)` on `X`. -/
theorem relocator_shifts_fragment_coordinates_witness :
    (∀ c ∈ "100".toList, c.isDigit = true) ∧
      str2int? "100".toList = some 100 ∧
      (∀ j, j < "X".toList.length →
        segMarker.isPrefixOf
          ((fragmentName "X".toList "100".toList "200".toList).drop j) = false) ∧
      relocate_record
          (fragmentName "X".toList "100".toList "200".toList ::
            "q".toList :: "10".toList :: "50".toList :: []) =
        Except.ok ["X".toList, "q".toList, "110".toList, "150".toList] := by
  refine ⟨by decide, by decide, by decide, ?_⟩
  rw [relocator_shifts_fragment_coordinates "X".toList "100".toList "200".toList
    "q".toList "10".toList "50".toList [] 100 10 50 (by decide) (by decide) (by decide)
    (by decide) (by decide) (by decide)]
  decide

/-- C7 counterexample: the record named `segmented1` does not match the
fragment pattern `<parentId>_segment_start_<s>_stop_<e>` at all, yet the
code does not pass it through unchanged: the branch guard is the substring
test `"segment" in parsed[0]`, so the record enters the fragment branch and
fails with an IndexError (`split("_segment_")` leaves a single piece and
`name_parsed[1]` is out of range). -/
theorem relocator_passthrough_counterexample :
    relocate_record ["segmented1".toList, "f".toList, "3".toList, "4".toList] =
        Except.error PyErr.indexError ∧
      relocate_record ["segmented1".toList, "f".toList, "3".toList, "4".toList] ≠
        Except.ok ["segmented1".toList, "f".toList, "3".toList, "4".toList] := by
  decide

/-- C7 (amended): (1) a record whose subject identifier does not contain
the substring `segment` passes through unchanged; the guard is this
substring test, not a pattern match, so a non-fragment name that merely
contains `segment` is *not* passed through — it enters the fragment branch,
whose outcome then depends on the name's shape (it can raise an IndexError
or a ValueError, or even relocate silently under a reinterpreted offset;
`relocator_passthrough_counterexample` shows the IndexError case).
(2) When the subject has the fragment shape but its offset token is ASCII
text that is not a Python integer literal, the relocator fails with a
ValueError (the surfaced `MalformedFragmentName`) rather than silently
passing the record through. -/
theorem relocator_passthrough_and_parse_failure :
    (∀ (p0 : List Char) (rest : List (List Char)), containsSub segWord p0 = false →
        relocate_record (p0 :: rest) = Except.ok (p0 :: rest)) ∧
      (∀ (parent t ed f1 a2 a3 : List Char) (rest : List (List Char)),
        (∀ j, j < parent.length →
          segMarker.isPrefixOf ((fragmentName parent t ed).drop j) = false) →
        findSub segMarker ("start_".toList ++ t ++ "_stop_".toList ++ ed) = none →
        '_' ∉ t → '_' ∉ ed → (∀ c ∈ t, c.toNat ≤ 127) → str2int? t = none →
        relocate_record (fragmentName parent t ed :: f1 :: a2 :: a3 :: rest) =
          Except.error PyErr.valueError) := by
  constructor
  · intro p0 rest h
    unfold relocate_record
    simp only [pyGet_zero, ebind_ok, h, ite_false_triv, epure]
  · intro parent t ed f1 a2 a3 rest hpre hnone hut hued _hascii hparse
    have hw := segWord_in_fragmentName parent t ed
    have hsplit1 : splitOnSub segMarker (fragmentName parent t ed) =
        [parent, "start_".toList ++ t ++ "_stop_".toList ++ ed] := by
      unfold fragmentName at hpre ⊢
      rw [splitOnSub_append segMarker parent _ (by decide) hpre,
        splitOnSub_none _ _ hnone]
    have hsplit2 := splitOnSub_tail_underscores t ed hut hued
    have eint_t : pyInt t = Except.error PyErr.valueError := by unfold pyInt; rw [hparse]
    unfold relocate_record
    simp only [pyGet_zero, pyGet_succ, ebind_ok, hw, ite_true_triv, hsplit1, hsplit2,
      pyGetNeg_four, eint_t, ebind_err]
    rfl

/-- Witness for C7 (amended): `plain` passes through unchanged, and
`X_segment_start_abc_stop_200` (non-numeric ASCII offset `abc`) fails with
a ValueError. -/
theorem relocator_passthrough_and_parse_failure_witness :
    containsSub segWord "plain".toList = false ∧
      relocate_record ["plain".toList, "f".toList] =
        Except.ok ["plain".toList, "f".toList] ∧
      (∀ c ∈ "abc".toList, c.toNat ≤ 127) ∧
      str2int? "abc".toList = none ∧
      relocate_record
          (fragmentName "X".toList "abc".toList "200".toList ::
            "q".toList :: "10".toList :: "50".toList :: []) =
        Except.error PyErr.valueError := by
  refine ⟨by decide, ?_, by decide, by decide, ?_⟩
  · exact relocator_passthrough_and_parse_failure.1 "plain".toList ["f".toList] (by decide)
  · exact relocator_passthrough_and_parse_failure.2 "X".toList "abc".toList "200".toList
      "q".toList "10".toList "50".toList [] (by decide) (by decide) (by decide)
      (by decide) (by decide) (by decide)

/-- C10: whenever the relocator treats a record as a fragment (its first
field contains `segment`) and succeeds, every field of the output record
other than the subject identifier (field 0) and the start/stop coordinates
(fields 2 and 3) is carried over unchanged: field 1 and all fields from
index 4 onward are preserved. -/
theorem relocator_preserves_other_fields (parsed out : List (List Char))
    (p0 : List Char) (h0 : parsed.get? 0 = some p0)
    (hseg : containsSub segWord p0 = true)
    (hok : relocate_record parsed = Except.ok out) :
    out.get? 1 = parsed.get? 1 ∧ out.drop 4 = parsed.drop 4 := by
  unfold relocate_record at hok
  have e0 : pyGet parsed 0 = Except.ok p0 := (pyGet_ok_iff parsed 0 p0).mpr h0
  rw [e0] at hok
  simp only [ebind_ok, hseg, ite_true_triv] at hok
  cases h1 : pyGet (splitOnSub segMarker p0) 0 with
  | error e => rw [h1] at hok; exact Except.noConfusion ((ebind_err e _) ▸ hok)
  | ok nn =>
  rw [h1, ebind_ok] at hok
  cases h2 : pyGet (splitOnSub segMarker p0) 1 with
  | error e => rw [h2] at hok; exact Except.noConfusion ((ebind_err e _) ▸ hok)
  | ok np1 =>
  rw [h2, ebind_ok] at hok
  cases h3 : pyGetNeg (splitOnSub ['_'] np1) 3 with
  | error e => rw [h3] at hok; exact Except.noConfusion ((ebind_err e _) ▸ hok)
  | ok seg_tok =>
  rw [h3, ebind_ok] at hok
  cases h4 : pyInt seg_tok with
  | error e => rw [h4] at hok; exact Except.noConfusion ((ebind_err e _) ▸ hok)
  | ok seg_start =>
  rw [h4, ebind_ok] at hok
  cases h5 : pyGet parsed 2 with
  | error e => rw [h5] at hok; exact Except.noConfusion ((ebind_err e _) ▸ hok)
  | ok p2v =>
  rw [h5, ebind_ok] at hok
  cases h6 : pyInt p2v with
  | error e => rw [h6] at hok; exact Except.noConfusion ((ebind_err e _) ▸ hok)
  | ok v2 =>
  rw [h6, ebind_ok] at hok
  cases h7 : pyGet parsed 3 with
  | error e => rw [h7] at hok; exact Except.noConfusion ((ebind_err e _) ▸ hok)
  | ok p3v =>
  rw [h7, ebind_ok] at hok
  cases h8 : pyInt p3v with
  | error e => rw [h8] at hok; exact Except.noConfusion ((ebind_err e _) ▸ hok)
  | ok v3 =>
  rw [h8, ebind_ok] at hok
  cases h9 : pyGet parsed 1 with
  | error e => rw [h9] at hok; exact Except.noConfusion ((ebind_err e _) ▸ hok)
  | ok p1v =>
  rw [h9, ebind_ok, epure] at hok
  have hout : nn :: p1v :: int2str (seg_start + v2) ::
      int2str (seg_start + v3) :: parsed.drop 4 = out := by
    injection hok
  subst hout
  refine ⟨?_, rfl⟩
  have := (pyGet_ok_iff parsed 1 p1v).mp h9
  rw [this]
  rfl

/-- Witness for C10 at a record with a fifth field: the query-name field
and the trailing fields survive relocation unchanged. -/
theorem relocator_preserves_other_fields_witness :
    (["X_segment_start_100_stop_200".toList, "q".toList, "10".toList, "50".toList,
        "60M".toList].get? 0 = some "X_segment_start_100_stop_200".toList) ∧
      containsSub segWord "X_segment_start_100_stop_200".toList = true ∧
      relocate_record ["X_segment_start_100_stop_200".toList, "q".toList, "10".toList,
          "50".toList, "60M".toList] =
        Except.ok ["X".toList, "q".toList, "110".toList, "150".toList, "60M".toList] ∧
      (["X".toList, "q".toList, "110".toList, "150".toList, "60M".toList].get? 1 =
          ["X_segment_start_100_stop_200".toList, "q".toList, "10".toList, "50".toList,
            "60M".toList].get? 1 ∧
        (["X".toList, "q".toList, "110".toList, "150".toList, "60M".toList].drop 4 =
          ["X_segment_start_100_stop_200".toList, "q".toList, "10".toList, "50".toList,
            "60M".toList].drop 4)) := by
  refine ⟨by decide, by decide, by decide, ?_⟩
  exact relocator_preserves_other_fields
    ["X_segment_start_100_stop_200".toList, "q".toList, "10".toList, "50".toList,
      "60M".toList]
    ["X".toList, "q".toList, "110".toList, "150".toList, "60M".toList]
    "X_segment_start_100_stop_200".toList (by decide) (by decide) (by decide)

end CactusCoverage
